import Mathlib

/-!
# Delayed summed variable: delay-line buffering and delayed aggregation

A shallow embedding of src/delayedSummedVariable.py.  A population of
source entities evolves a scalar `v`; a circular history buffer
`v_buffer` of shape `(buffer_size, N_source)` with a shared integer
`buffer_pointer` records `v` once per tick; each connection (synapse)
reads the value of its source from `delay_step` ticks ago and the target
accumulator `I` is recomputed each tick as the weighted sum of these
delayed values (the summed variable `I_post = v_delayed*w`).

Scalar values are modelled as exact rationals.  Python integer modulo
(which is non-negative for a positive modulus, also on negative
operands) is modelled with `Int.emod`.  The per-tick phase order is the
one the specification fixes, since the run-loop scheduling machinery is
not part of the source file; everything below each phase (pointer
arithmetic, row overwrite, delayed lookup, weighted sum, threshold and
reset rules, delay generation, buffer sizing) is translated from the
source.
-/

namespace DelayedSummedVariable

/-- A connection (one synapse of `S`, source lines 61-68): presynaptic
index `source`, postsynaptic index `target`, weight `w` and integer
delay `delay_step` in ticks. -/
structure Connection where
  source : ℕ
  target : ℕ
  w : ℚ
  delay_step : ℕ

/-- Static configuration of a run: number of source entities `N`, the
derived `buffer_size`, the connection table, the intrinsic per-tick
update `upd` of `v` (in the source, the euler step of `dv/dt = 0.4/ms`
with `dt = 1 ms`), the threshold predicate and the reset value. -/
structure Params where
  N : ℕ
  buffer_size : ℕ
  conns : List Connection
  upd : ℚ → ℚ
  threshold : ℚ → Bool
  vreset : ℚ

/-- Mutable per-tick state: `v` of every source entity, the shared
`buffer_pointer`, the history `v_buffer` (row, column) and the target
accumulators `I`. -/
structure SimState where
  v : ℕ → ℚ
  buffer_pointer : ℕ
  v_buffer : ℕ → ℕ → ℚ
  I : ℕ → ℚ

/-- Row index used by the per-tick write, from `update_code` (source
line 37): `(buffer_pointer + 1) % buffer_size`. -/
def writeRow (buffer_pointer buffer_size : ℕ) : ℕ :=
  (buffer_pointer + 1) % buffer_size

/-- Row index used by the delayed read, from `get_v_delayed` (source
line 84): `(buffer_pointer - delay_step) % buffer_size`, with the Python
modulo of a possibly negative left operand, hence `Int.emod`. -/
def readRow (buffer_pointer buffer_size delay_step : ℕ) : ℕ :=
  (((buffer_pointer : ℤ) - (delay_step : ℤ)) % (buffer_size : ℤ)).toNat

/-- The function `get_v_delayed` (source lines 83-84): the buffer entry at row
`(buffer_pointer - delay_step) % buffer_size`, column `i`. -/
def get_v_delayed (v_buffer : ℕ → ℕ → ℚ) (buffer_pointer buffer_size i delay_step : ℕ) : ℚ :=
  v_buffer (readRow buffer_pointer buffer_size delay_step) i

/-- The per-tick buffer update (source lines 37-39 and 43-52): advance
the shared pointer by one modulo `buffer_size`, then overwrite exactly
the row at the new pointer with the current `v` values
(`v_buffer[buffer_pointer, :] = v`). -/
def buffer_updater (P : Params) (s : SimState) : SimState :=
  { s with
    buffer_pointer := writeRow s.buffer_pointer P.buffer_size
    v_buffer := fun r c =>
      if r = writeRow s.buffer_pointer P.buffer_size then s.v c else s.v_buffer r c }

/-- The intrinsic state update of the source group (source line 31):
apply the pluggable per-step rule `upd` to every `v`. -/
def state_updater (P : Params) (s : SimState) : SimState :=
  { s with v := fun i => P.upd (s.v i) }

/-- The value `v_delayed` of one connection (source lines 72-75): the delayed
lookup for its source index and delay. -/
def resolve (P : Params) (s : SimState) (c : Connection) : ℚ :=
  get_v_delayed s.v_buffer s.buffer_pointer P.buffer_size c.source c.delay_step

/-- The summed-variable update (source line 65, `I_post = v_delayed*w
(summed)`): every target accumulator is fully recomputed as the sum of
`w * v_delayed` over the connections terminating at it. -/
def aggregate (P : Params) (s : SimState) : SimState :=
  { s with I := fun j =>
      ((P.conns.filter (fun c => c.target == j)).map (fun c => c.w * resolve P s c)).sum }

/-- Threshold and reset of the source group (source line 33, threshold
`v > 4.0`, reset `v = 0.0`), with the pluggable predicate and reset
value. -/
def threshold_reset (P : Params) (s : SimState) : SimState :=
  { s with v := fun i => if P.threshold (s.v i) then P.vreset else s.v i }

/-- Modelled from the spec: one tick of the step engine in the fixed
phase order `IntrinsicUpdate → BufferWrite → DelayedAggregate →
ThresholdReset` (spec section 4.5).  The run-loop scheduler that orders
the phases is library machinery absent from the source file; each phase
itself is translated from the source. -/
def step (P : Params) (s : SimState) : SimState :=
  threshold_reset P (aggregate P (buffer_updater P (state_updater P s)))

/-- Initial state: `v`, the buffer and the accumulators are
zero-initialized and the pointer starts at 0. -/
def init : SimState :=
  { v := fun _ => 0, buffer_pointer := 0, v_buffer := fun _ _ => 0, I := fun _ => 0 }

/-- State after `t` complete ticks (ticks are numbered from 0). -/
def stateAfter (P : Params) (t : ℕ) : SimState :=
  (step P)^[t] init

/-- State in the middle of tick `t`, right after its buffer write. -/
def afterWrite (P : Params) (t : ℕ) : SimState :=
  buffer_updater P (state_updater P (stateAfter P t))

/-- The pre-reset trajectory: the value of `v` of source `i` after the
intrinsic update of tick `t`, which is exactly the value written into
the buffer at tick `t`. -/
def vPre (P : Params) (t i : ℕ) : ℚ :=
  (state_updater P (stateAfter P t)).v i

/-- The accumulator trace: `I` of target `j` as computed by tick `t`. -/
def Itrace (P : Params) (t j : ℕ) : ℚ :=
  (stateAfter P (t+1)).I j

/-- Euler step of `dv/dt = 0.4/ms` with `dt = 1 ms` (source lines
21, 31): `v` grows by `0.4 = 2/5` per tick. -/
def G_update (v : ℚ) : ℚ := v + 2/5

/-- The threshold predicate of the source group, `v > 4.0` (source
line 33). -/
def G_threshold (v : ℚ) : Bool := decide ((4 : ℚ) < v)

/-- The reset value of the source group, `v = 0.0` (source line 33). -/
def G_reset : ℚ := 0

/-- Upper parameter of the delay sampling (source line 26). -/
def delay_max : ℕ := 10

/-- Error kinds raised by the construction-time Python code. -/
inductive PyError where
  | valueError
deriving DecidableEq

/-- Python builtin `max` over a list (source line 35): on an empty
sequence it raises `ValueError`, otherwise it returns the greatest
element (a left fold of the binary max). -/
def pyMax : List ℕ → Except PyError ℕ
  | [] => Except.error PyError.valueError
  | x :: xs => Except.ok (xs.foldl max x)

/-- The derived `buffer_size = 1 + max(delays)` (source line 35); propagates the
`ValueError` of `max` on an empty delay list. -/
def mkBufferSize (delays : List ℕ) : Except PyError ℕ :=
  (pyMax delays).map (fun m => 1 + m)

/-- Modelled from the spec: the support of the delay sampler
`randint(1, delay_max)` (source line 27).  The sampler is numpy library
code absent from the source file; its upper bound is exclusive, so a
sampled value `n` satisfies `1 ≤ n < delay_max`. -/
def randint_support (lo hi n : ℕ) : Prop := lo ≤ n ∧ n < hi

/-- Modelled from the spec: the all-to-all connection table built by
`S.connect()` with `S.delay_step = delays` (source lines 67-68) — the
connectivity constructor is library code absent from the source file.
Synapse `k` (for `k < N * N`, sorted by presynaptic index) connects
source `k / N` to target `k % N`; its weight is never assigned in the
source and stays at the default 0; its delay is entry `k` of the
sampled delay list. -/
def mkConnections (N : ℕ) (delays : List ℕ) : List Connection :=
  (List.range (N * N)).map (fun k => ⟨k / N, k % N, 0, delays.getD k 0⟩)

/-- The concrete scenario of spec section 8: one source entity with the
source dynamics, threshold and reset, one target, a single connection
with weight 1 and `delay_step = 2`, and the derived
`buffer_size = 1 + 2 = 3`. -/
def scenario : Params :=
  { N := 1, buffer_size := 3, conns := [⟨0, 0, 1, 2⟩],
    upd := G_update, threshold := G_threshold, vreset := G_reset }

/-- A configuration exhibiting an immediate threshold crossing: the
constant intrinsic update sends `v` to 5 > 4 on the first tick. -/
def spikeParams : Params :=
  { N := 1, buffer_size := 3, conns := [⟨0, 0, 1, 2⟩],
    upd := fun _ => 5, threshold := G_threshold, vreset := 0 }

/-! ## Basic facts about the phases and the pointer -/

theorem step_eq (P : Params) (s : SimState) :
    step P s = threshold_reset P (aggregate P (buffer_updater P (state_updater P s))) := rfl

theorem step_v_buffer (P : Params) (s : SimState) :
    (step P s).v_buffer = (buffer_updater P (state_updater P s)).v_buffer := rfl

theorem step_buffer_pointer (P : Params) (s : SimState) :
    (step P s).buffer_pointer = (buffer_updater P (state_updater P s)).buffer_pointer := rfl

theorem step_I (P : Params) (s : SimState) :
    (step P s).I = (aggregate P (buffer_updater P (state_updater P s))).I := rfl

theorem stateAfter_zero (P : Params) : stateAfter P 0 = init := rfl

theorem stateAfter_succ (P : Params) (t : ℕ) :
    stateAfter P (t+1) = step P (stateAfter P t) :=
  Function.iterate_succ_apply' (step P) t init

theorem stateAfter_succ_v_buffer (P : Params) (t : ℕ) :
    (stateAfter P (t+1)).v_buffer = (afterWrite P t).v_buffer := by
  rw [stateAfter_succ]; rfl

/-- The pointer after `t` ticks is `t % buffer_size`. -/
theorem buffer_pointer_after (P : Params) (t : ℕ) :
    (stateAfter P t).buffer_pointer = t % P.buffer_size := by
  induction t with
  | zero => simp [stateAfter_zero, init]
  | succ t ih =>
    rw [stateAfter_succ, step_buffer_pointer]
    show writeRow (stateAfter P t).buffer_pointer P.buffer_size = _
    rw [ih, writeRow, Nat.mod_add_mod]

/-- The pointer right after the write of tick `t` is `(t+1) % buffer_size`. -/
theorem afterWrite_pointer (P : Params) (t : ℕ) :
    (afterWrite P t).buffer_pointer = (t+1) % P.buffer_size := by
  show writeRow (stateAfter P t).buffer_pointer P.buffer_size = _
  rw [buffer_pointer_after, writeRow, Nat.mod_add_mod]

/-- The buffer after the write of tick `t`: the row at the new pointer
holds the just-computed pre-reset values, every other row is unchanged. -/
theorem afterWrite_v_buffer (P : Params) (t : ℕ) (r c : ℕ) :
    (afterWrite P t).v_buffer r c =
      if r = (t+1) % P.buffer_size then vPre P t c else (stateAfter P t).v_buffer r c := by
  show (if r = writeRow (stateAfter P t).buffer_pointer P.buffer_size
        then (state_updater P (stateAfter P t)).v c
        else (stateAfter P t).v_buffer r c) = _
  rw [buffer_pointer_after, writeRow, Nat.mod_add_mod]
  rfl

/-! ## The two buffer-content invariants -/

/-- A row that no tick before `t` has written still holds the
initialization value 0. -/
theorem unwritten_row_zero (P : Params) :
    ∀ t r c, (∀ τ, τ < t → (τ+1) % P.buffer_size ≠ r) →
      (stateAfter P t).v_buffer r c = 0 := by
  intro t
  induction t with
  | zero => intro r c _; rfl
  | succ t ih =>
    intro r c h
    rw [stateAfter_succ_v_buffer, afterWrite_v_buffer]
    rw [if_neg (fun he => h t (Nat.lt_succ_self t) he.symm)]
    exact ih r c (fun τ hτ => h τ (Nat.lt_succ_of_lt hτ))

/-- The value written at tick `τ` is still present at its row after any
number `t ≤ τ + buffer_size` of ticks: the pointer has not yet wrapped
back onto it. -/
theorem written_row_persists (P : Params) :
    ∀ t τ c, τ < t → t ≤ τ + P.buffer_size →
      (stateAfter P t).v_buffer ((τ+1) % P.buffer_size) c = vPre P τ c := by
  intro t
  induction t with
  | zero => intro τ c h; omega
  | succ t ih =>
    intro τ c hlt hle
    rw [stateAfter_succ_v_buffer, afterWrite_v_buffer]
    rcases Nat.lt_succ_iff_lt_or_eq.mp hlt with hlt' | rfl
    · rw [if_neg]
      · exact ih τ c hlt' (by omega)
      · intro he
        have hmod : (τ+1) ≡ (t+1) [MOD P.buffer_size] := he
        have hdvd : P.buffer_size ∣ (t+1) - (τ+1) :=
          (Nat.modEq_iff_dvd' (by omega)).mp hmod
        have hB : P.buffer_size ≤ (t+1) - (τ+1) :=
          Nat.le_of_dvd (by omega) hdvd
        omega
    · rw [if_pos rfl]

/-! ## The delayed-read law -/

theorem readRow_mod_left (p B d : ℕ) :
    readRow (p % B) B d = readRow p B d := by
  unfold readRow
  congr 1
  rw [Int.natCast_mod]
  conv_lhs => rw [Int.sub_emod]
  rw [Int.emod_emod_of_dvd _ dvd_rfl, ← Int.sub_emod]

/-- The delayed read performed by tick `t` (after its write): with
`1 ≤ delay_step ≤ buffer_size - 1` it returns the pre-reset value of
its source from exactly `delay_step` ticks ago when that many ticks
have elapsed, and the initialization value 0 otherwise. -/
theorem get_v_delayed_spec (P : Params) (t i d : ℕ)
    (h1 : 1 ≤ d) (h2 : d + 1 ≤ P.buffer_size) :
    get_v_delayed (afterWrite P t).v_buffer (afterWrite P t).buffer_pointer
        P.buffer_size i d =
      if d ≤ t then vPre P (t - d) i else 0 := by
  have hB : 0 < P.buffer_size := by omega
  rw [get_v_delayed, afterWrite_pointer, readRow_mod_left]
  by_cases hdt : d ≤ t
  · rw [if_pos hdt]
    have hrow : readRow (t+1) P.buffer_size d = (t - d + 1) % P.buffer_size := by
      unfold readRow
      have hcast : ((t+1 : ℕ) : ℤ) - (d : ℤ) = ((t - d + 1 : ℕ) : ℤ) := by omega
      rw [hcast, ← Int.natCast_mod, Int.toNat_natCast]
    rw [hrow, ← stateAfter_succ_v_buffer]
    exact written_row_persists P (t+1) (t - d) i (by omega) (by omega)
  · rw [if_neg hdt]
    rw [← stateAfter_succ_v_buffer]
    apply unwritten_row_zero
    intro τ hτ he
    have hBz : (P.buffer_size : ℤ) ≠ 0 := by omega
    have hre : (((τ+1) % P.buffer_size : ℕ) : ℤ)
        = (((t+1 : ℕ) : ℤ) - (d : ℤ)) % (P.buffer_size : ℤ) := by
      rw [he, readRow, Int.toNat_of_nonneg (Int.emod_nonneg _ hBz)]
    rw [Int.natCast_mod] at hre
    have hdvd : (P.buffer_size : ℤ) ∣ (((t+1 : ℕ) : ℤ) - (d : ℤ)) - ((τ+1 : ℕ) : ℤ) :=
      Int.ModEq.dvd hre
    have hle : (P.buffer_size : ℤ) ≤ -((((t+1 : ℕ) : ℤ) - (d : ℤ)) - ((τ+1 : ℕ) : ℤ)) :=
      Int.le_of_dvd (by omega) (dvd_neg.mpr hdvd)
    omega

/-- In the concrete scenario (single connection with delay 2) the
accumulator of the sole target is 0 at the ticks before the delay has
elapsed. -/
theorem scenario_Itrace_early (u : ℕ) (hu : u < 2) : Itrace scenario u 0 = 0 := by
  have hr : resolve scenario (afterWrite scenario u) ⟨0, 0, 1, 2⟩ = 0 := by
    show get_v_delayed (afterWrite scenario u).v_buffer
        (afterWrite scenario u).buffer_pointer scenario.buffer_size 0 2 = 0
    rw [get_v_delayed_spec scenario u 0 2 (by omega) (by decide), if_neg (by omega)]
  rw [Itrace, stateAfter_succ, step_I]
  show ((List.filter (fun c => c.target == 0)
      [({ source := 0, target := 0, w := 1, delay_step := 2 } : Connection)]).map
      (fun c => c.w * resolve scenario (afterWrite scenario u) c)).sum = 0
  simp [hr]

/-! ## Helper lemmas on lists -/

theorem map_congr_mem {α β : Type _} :
    ∀ (l : List α) (f g : α → β), (∀ a ∈ l, f a = g a) → l.map f = l.map g
  | [], _, _, _ => rfl
  | a :: l, f, g, h => by
    rw [List.map_cons, List.map_cons, h a (List.mem_cons_self a l),
      map_congr_mem l f g (fun x hx => h x (List.mem_cons_of_mem a hx))]

theorem le_foldl_max :
    ∀ (xs : List ℕ) (x d : ℕ), d ∈ x :: xs → d ≤ List.foldl max x xs
  | [], x, d, h => by
    rw [List.mem_singleton] at h
    rw [h, List.foldl_nil]
  | y :: ys, x, d, h => by
    rw [List.foldl_cons]
    rcases List.mem_cons.mp h with rfl | h'
    · exact le_trans (Nat.le_max_left d y)
        (le_foldl_max ys (max d y) _ (List.mem_cons_self _ _))
    · rcases List.mem_cons.mp h' with rfl | h''
      · exact le_trans (Nat.le_max_right x d)
          (le_foldl_max ys (max x d) _ (List.mem_cons_self _ _))
      · exact le_foldl_max ys (max x y) d (List.mem_cons_of_mem _ h'')

theorem foldl_max_mem :
    ∀ (xs : List ℕ) (x : ℕ), List.foldl max x xs ∈ x :: xs
  | [], x => List.mem_cons_self x []
  | y :: ys, x => by
    rw [List.foldl_cons]
    rcases List.mem_cons.mp (foldl_max_mem ys (max x y)) with he | h'
    · have hm : max x y = x ∨ max x y = y := by omega
      rcases hm with hc | hc
      · rw [he, hc]
        exact List.mem_cons_self _ _
      · rw [he, hc]
        exact List.mem_cons_of_mem _ (List.mem_cons_self _ _)
    · exact List.mem_cons_of_mem _ (List.mem_cons_of_mem _ h')

/-! ## The claims -/

/-- Claim C1: for every target `j` and tick `t`, the accumulator
computed by tick `t` is the sum, over the connections terminating at
`j`, of `w * v(t - d)` where `v` is the pre-reset trajectory of the
connection source (and the initialization value 0 stands in before
`d` ticks have elapsed); the sum is recomputed from scratch, never
added onto the previous accumulator value. -/
theorem C1_delayed_aggregation (P : Params)
    (hd : ∀ c ∈ P.conns, 1 ≤ c.delay_step ∧ c.delay_step + 1 ≤ P.buffer_size)
    (t j : ℕ) :
    Itrace P t j =
      ((P.conns.filter (fun c => c.target == j)).map
        (fun c => c.w *
          (if c.delay_step ≤ t then vPre P (t - c.delay_step) c.source else 0))).sum
    ∧ ∀ (s : SimState) (f : ℕ → ℚ),
        (aggregate P { s with I := f }).I = (aggregate P s).I := by
  refine ⟨?_, fun s f => rfl⟩
  rw [Itrace, stateAfter_succ, step_I]
  show ((P.conns.filter (fun c => c.target == j)).map
      (fun c => c.w * resolve P (afterWrite P t) c)).sum = _
  congr 1
  apply map_congr_mem
  intro c hc
  obtain ⟨h1, h2⟩ := hd c (List.mem_filter.mp hc).1
  have hres : resolve P (afterWrite P t) c
      = if c.delay_step ≤ t then vPre P (t - c.delay_step) c.source else 0 :=
    get_v_delayed_spec P t c.source c.delay_step h1 h2
  rw [hres]

/-- Witness for C1 at the concrete one-connection scenario. -/
theorem C1_delayed_aggregation_witness :
    Itrace scenario 3 0 =
      ((scenario.conns.filter (fun c => c.target == 0)).map
        (fun c => c.w *
          (if c.delay_step ≤ 3 then vPre scenario (3 - c.delay_step) c.source else 0))).sum :=
  (C1_delayed_aggregation scenario (by decide) 3 0).1

/-- Claim C2: within a tick the phases run in the fixed order
intrinsic update, buffer write, delayed aggregation, threshold and
reset: the tick is their composition in that order, the row written
holds the post-update values `upd (v)`, and neither the aggregation nor
the reset touches the buffer, while the accumulators are final before
the reset runs. -/
theorem C2_phase_order (P : Params) (s : SimState) :
    step P s = threshold_reset P (aggregate P (buffer_updater P (state_updater P s)))
    ∧ (∀ c, (buffer_updater P (state_updater P s)).v_buffer
        (writeRow s.buffer_pointer P.buffer_size) c = P.upd (s.v c))
    ∧ (step P s).v_buffer = (buffer_updater P (state_updater P s)).v_buffer
    ∧ (step P s).I = (aggregate P (buffer_updater P (state_updater P s))).I := by
  refine ⟨rfl, fun c => ?_, rfl, rfl⟩
  show (if writeRow s.buffer_pointer P.buffer_size = writeRow s.buffer_pointer P.buffer_size
      then P.upd (s.v c) else (s.v_buffer _ c)) = P.upd (s.v c)
  rw [if_pos rfl]

/-- Claim C3: the per-tick buffer write first advances the shared
pointer to `(p + 1) % buffer_size` and then overwrites exactly the row
at the new pointer with the current `v` values, leaving every other row
unchanged; each tick advances the pointer exactly once and the buffer a
tick ends with is the one its write produced. -/
theorem C3_buffer_write (P : Params) (s : SimState) (t : ℕ) :
    (buffer_updater P s).buffer_pointer = (s.buffer_pointer + 1) % P.buffer_size
    ∧ (∀ c, (buffer_updater P s).v_buffer ((s.buffer_pointer + 1) % P.buffer_size) c = s.v c)
    ∧ (∀ r c, r ≠ (s.buffer_pointer + 1) % P.buffer_size →
        (buffer_updater P s).v_buffer r c = s.v_buffer r c)
    ∧ (stateAfter P (t+1)).buffer_pointer
        = ((stateAfter P t).buffer_pointer + 1) % P.buffer_size
    ∧ (stateAfter P (t+1)).v_buffer = (afterWrite P t).v_buffer := by
  refine ⟨rfl, fun c => if_pos rfl, fun r c hr => if_neg hr, ?_, stateAfter_succ_v_buffer P t⟩
  rw [stateAfter_succ, step_buffer_pointer]
  rfl

/-- Witness for C3: an untouched row keeps its previous content. -/
theorem C3_buffer_write_witness :
    (buffer_updater scenario init).v_buffer 0 0 = init.v_buffer 0 0 :=
  (C3_buffer_write scenario init 0).2.2.1 0 0 (by decide)

/-- Claim C4: the delayed lookup returns the buffer entry at row
`(p - delay_step) % buffer_size`, column `i`, for `p` the pointer after
the current write; with `1 ≤ d ≤ buffer_size - 1` and at least `d`
ticks elapsed it is the value of source `i` written exactly `d` ticks
ago. -/
theorem C4_delayed_read (P : Params) (t i d : ℕ)
    (h1 : 1 ≤ d) (h2 : d + 1 ≤ P.buffer_size) :
    get_v_delayed (afterWrite P t).v_buffer (afterWrite P t).buffer_pointer
        P.buffer_size i d
      = (afterWrite P t).v_buffer
          (readRow (afterWrite P t).buffer_pointer P.buffer_size d) i
    ∧ (d ≤ t →
        get_v_delayed (afterWrite P t).v_buffer (afterWrite P t).buffer_pointer
            P.buffer_size i d
          = vPre P (t - d) i) := by
  refine ⟨rfl, fun hdt => ?_⟩
  rw [get_v_delayed_spec P t i d h1 h2, if_pos hdt]

/-- Witness for C4 at the concrete scenario, reading at tick 5 with
delay 2. -/
theorem C4_delayed_read_witness :
    get_v_delayed (afterWrite scenario 5).v_buffer (afterWrite scenario 5).buffer_pointer
        scenario.buffer_size 0 2 = vPre scenario 3 0 :=
  (C4_delayed_read scenario 5 0 2 (by decide) (by decide)).2 (by decide)

/-- Claim C5: a successful construction yields
`buffer_size = 1 + max(delays)` for an attained maximum bounding every
delay, hence every delay satisfies `d ≤ buffer_size - 1`; consequently
a value written at tick `t` is still the one read by its consumer with
delay `d` at tick `t + d`. -/
theorem C5_buffer_size_invariant (delays : List ℕ) (B : ℕ)
    (hok : mkBufferSize delays = Except.ok B) :
    (∃ m ∈ delays, B = 1 + m ∧ ∀ d ∈ delays, d ≤ m)
    ∧ (∀ d ∈ delays, d + 1 ≤ B)
    ∧ (∀ (P : Params), P.buffer_size = B → ∀ d ∈ delays, 1 ≤ d → ∀ t i,
        get_v_delayed (afterWrite P (t + d)).v_buffer
            (afterWrite P (t + d)).buffer_pointer P.buffer_size i d
          = vPre P t i) := by
  cases delays with
  | nil => simp [mkBufferSize, pyMax, Except.map] at hok
  | cons x xs =>
    simp only [mkBufferSize, pyMax, Except.map, Except.ok.injEq] at hok
    have hmem := foldl_max_mem xs x
    refine ⟨⟨xs.foldl max x, hmem, hok.symm, fun d hdm => le_foldl_max xs x d hdm⟩,
      fun d hdm => ?_, fun P hP d hdm hd1 t i => ?_⟩
    · have := le_foldl_max xs x d hdm
      omega
    · have hdB : d + 1 ≤ P.buffer_size := by
        have := le_foldl_max xs x d hdm
        omega
      rw [get_v_delayed_spec P (t + d) i d hd1 hdB, if_pos (by omega)]
      have hsub : t + d - d = t := by omega
      rw [hsub]

/-- Witness for C5: the scenario buffer size is derived from the delay
list `[2]` and the round-trip read-back holds at tick 1 + 2. -/
theorem C5_buffer_size_invariant_witness :
    get_v_delayed (afterWrite scenario (1 + 2)).v_buffer
        (afterWrite scenario (1 + 2)).buffer_pointer scenario.buffer_size 0 2
      = vPre scenario 1 0 :=
  (C5_buffer_size_invariant [2] 3 rfl).2.2 scenario rfl 2 (by decide) (by decide) 1 0

/-- Claim C6: if source `i` crosses the threshold at tick `t` (its
post-update value satisfies the threshold predicate), the history row
written at tick `t` holds that pre-reset value even after the tick
completes, the value of `v` entering tick `t+1` is the reset value, and
the row written at tick `t+1` is computed from the reset value, not
from the spiking one. -/
theorem C6_reset_visibility (P : Params) (t i : ℕ)
    (hspike : P.threshold (vPre P t i) = true) :
    (stateAfter P (t+1)).v_buffer ((t+1) % P.buffer_size) i = vPre P t i
    ∧ (stateAfter P (t+1)).v i = P.vreset
    ∧ vPre P (t+1) i = P.upd P.vreset
    ∧ (stateAfter P (t+1+1)).v_buffer ((t+1+1) % P.buffer_size) i = P.upd P.vreset := by
  have hv : (stateAfter P (t+1)).v i
      = if P.threshold (vPre P t i) then P.vreset else vPre P t i := by
    rw [stateAfter_succ]; rfl
  rw [hspike, if_pos rfl] at hv
  have hnext : vPre P (t+1) i = P.upd P.vreset := by
    show P.upd ((stateAfter P (t+1)).v i) = P.upd P.vreset
    rw [hv]
  refine ⟨?_, hv, hnext, ?_⟩
  · rw [stateAfter_succ_v_buffer, afterWrite_v_buffer, if_pos rfl]
  · rw [stateAfter_succ_v_buffer, afterWrite_v_buffer, if_pos rfl, hnext]

/-- Witness for C6 at a spiking configuration: the constant update
jumps `v` above the threshold at tick 0, and `v` enters tick 1 reset. -/
theorem C6_reset_visibility_witness :
    (stateAfter spikeParams (0+1)).v 0 = spikeParams.vreset :=
  (C6_reset_visibility spikeParams 0 0 (by decide)).2.1

/-- Claim C7: a delayed read whose delay exceeds the ticks elapsed
returns the buffer initialization value 0 rather than failing; in the
concrete one-connection scenario with delay 2 the accumulator is 0 at
ticks 0 and 1. -/
theorem C7_prestart_read (P : Params) (t i d : ℕ)
    (h1 : 1 ≤ d) (h2 : d + 1 ≤ P.buffer_size) (hlt : t < d) :
    get_v_delayed (afterWrite P t).v_buffer (afterWrite P t).buffer_pointer
        P.buffer_size i d = 0
    ∧ (Itrace scenario 0 0 = 0 ∧ Itrace scenario 1 0 = 0) := by
  refine ⟨?_, ?_, ?_⟩
  · rw [get_v_delayed_spec P t i d h1 h2, if_neg (by omega)]
  · exact scenario_Itrace_early 0 (by omega)
  · exact scenario_Itrace_early 1 (by omega)

/-- Witness for C7: at tick 1 a read with delay 2 returns 0. -/
theorem C7_prestart_read_witness :
    get_v_delayed (afterWrite scenario 1).v_buffer (afterWrite scenario 1).buffer_pointer
        scenario.buffer_size 0 2 = 0 :=
  (C7_prestart_read scenario 1 0 2 (by decide) (by decide) (by decide)).1

/-- Claim C8 counterexample: construction does not reject a delay below
1 — with the delay list `[0]` it succeeds and returns `buffer_size = 1`
— and the failure on an empty connection list is the `ValueError` of
the builtin `max`, not a dedicated configuration error. -/
theorem C8_construction_counterexample :
    mkBufferSize [0] = Except.ok 1
    ∧ mkBufferSize [] = Except.error PyError.valueError :=
  ⟨rfl, rfl⟩

/-- Claim C8 (amended): construction fails — `max` raises `ValueError`
— exactly when the connection list is empty; on any non-empty delay
list it succeeds (a non-positive delay is not rejected). -/
theorem C8_construction (delays : List ℕ) :
    (delays = [] → mkBufferSize delays = Except.error PyError.valueError)
    ∧ (delays ≠ [] → ∃ B, mkBufferSize delays = Except.ok B ∧ 1 ≤ B) := by
  refine ⟨?_, ?_⟩
  · rintro rfl; rfl
  · intro h
    cases delays with
    | nil => exact absurd rfl h
    | cons x xs => exact ⟨1 + xs.foldl max x, rfl, by omega⟩

/-- Witness for C8: the empty delay list fails with `ValueError`. -/
theorem C8_construction_witness :
    mkBufferSize [] = Except.error PyError.valueError :=
  (C8_construction []).1 rfl

/-- Claim C9: determinism — the per-tick traces of `v` and `I` are
functions of the configuration alone: two runs of identical
configurations produce identical traces at every tick and index. -/
theorem C9_determinism (P1 P2 : Params) (h : P1 = P2) (t i j : ℕ) :
    vPre P1 t i = vPre P2 t i ∧ Itrace P1 t j = Itrace P2 t j := by
  subst h; exact ⟨rfl, rfl⟩

/-- Witness for C9 at the concrete scenario. -/
theorem C9_determinism_witness :
    vPre scenario 2 0 = vPre scenario 2 0 :=
  (C9_determinism scenario scenario rfl 2 0 0).1

/-- Claim C10: no buffer access is out of bounds — for any positive
buffer size both the write row `(p + 1) % buffer_size` and the read row
`(p - d) % buffer_size` (Python modulo, non-negative even for `p < d`)
lie below `buffer_size`; every delay in the support of
`randint(1, delay_max)` lies in `[1, delay_max - 1]` (the upper bound
is exclusive); every delay of a successfully constructed buffer
satisfies `d + 1 ≤ buffer_size`; and every generated connection has
source and target column indices below `N`. -/
theorem C10_index_safety (B : ℕ) (hB : 1 ≤ B) :
    (∀ p, writeRow p B < B)
    ∧ (∀ p d, readRow p B d < B)
    ∧ (∀ d, randint_support 1 delay_max d → 1 ≤ d ∧ d ≤ delay_max - 1)
    ∧ (∀ delays d, mkBufferSize delays = Except.ok B → d ∈ delays → d + 1 ≤ B)
    ∧ (∀ N delays c, c ∈ mkConnections N delays → c.source < N ∧ c.target < N) := by
  refine ⟨fun p => Nat.mod_lt _ (by omega), fun p d => ?_, fun d hd => ?_,
    fun delays d hok hdm => ?_, fun N delays c hc => ?_⟩
  · have h1 : (0 : ℤ) ≤ ((p : ℤ) - (d : ℤ)) % (B : ℤ) :=
      Int.emod_nonneg _ (by omega)
    have h2 : ((p : ℤ) - (d : ℤ)) % (B : ℤ) < (B : ℤ) :=
      Int.emod_lt_of_pos _ (by omega)
    rw [readRow]
    omega
  · obtain ⟨ha, hb⟩ := hd
    refine ⟨ha, ?_⟩
    simp only [delay_max] at hb ⊢
    omega
  · cases delays with
    | nil => simp [mkBufferSize, pyMax, Except.map] at hok
    | cons x xs =>
      simp only [mkBufferSize, pyMax, Except.map, Except.ok.injEq] at hok
      have := le_foldl_max xs x d hdm
      omega
  · simp only [mkConnections, List.mem_map, List.mem_range] at hc
    obtain ⟨k, hk, rfl⟩ := hc
    have hN : 0 < N := by
      rcases Nat.eq_zero_or_pos N with rfl | h
      · simp at hk
      · exact h
    exact ⟨(Nat.div_lt_iff_lt_mul hN).mpr hk, Nat.mod_lt _ hN⟩

/-- Witness for C10: a pre-start read row is in bounds. -/
theorem C10_index_safety_witness :
    readRow 0 3 2 < 3 :=
  (C10_index_safety 3 (by decide)).2.1 0 2

end DelayedSummedVariable
